import Mathlib

/-!
# Verification of the sif-itree interval tree

Shallow embedding of the sif-itree Rust library: an immutable, flat
augmented interval tree over half-open intervals.  Slices become `List`s,
the stateful `FnMut` handler becomes explicit state passing, and the
`unreachable!()` branches become `none` results of `Option`-valued
functions.  Intervals carry boundaries in a linearly ordered type `K` and
arbitrary values of type `V`.
-/

namespace Sif

/-- Rust `Range<K>` as used by the library: a half-open interval, where
`.1` is the field `start` and `.2` is the field `end`. -/
abbrev Range (K : Type) := K × K

/-- Rust `Item<K, V> = (Range<K>, V)`: a stored interval and its value. -/
abbrev Item (K V : Type) := Range K × V

/-- Rust `Node<K, V> = (Item<K, V>, K)`: an item together with the maximum
of the interval upper bounds in the node's implicit subtree. -/
abbrev Node (K V : Type) := Item K V × K

/-- Rust `std::ops::ControlFlow<R, ()>`. -/
inductive ControlFlow (R : Type) where
  | Break (r : R)
  | Continue
deriving DecidableEq, Repr

/-- The interval tree: a wrapper around the flat node storage
(`struct ITree { nodes: S, .. }` with `S` a slice of nodes). -/
structure ITree (K V : Type) where
  nodes : List (Node K V)

variable {K V σ R : Type} [LinearOrder K]

/-- Functional translation of `update_max` from `src/sort.rs`.  The slice is
split positionally into `left = nodes[.. len/2]`, `mid = nodes[len/2]` and
`right = nodes[len/2 + 1 ..]`; the two sequential in-place updates of the
augmentation field `mid.1` become four cases over the emptiness of `left`
and `right`.  The result is the updated slice together with the returned
key; `none` models the `unreachable!()` branch, which is taken exactly when
the slice is empty. -/
def update_max (nodes : List (Node K V)) : Option (List (Node K V) × K) :=
  match hmr : nodes.drop (nodes.length / 2) with
  | [] => none
  | mid :: right =>
    if (nodes.take (nodes.length / 2)).isEmpty then
      if right.isEmpty then
        some (nodes.take (nodes.length / 2) ++ (mid.1, mid.2) :: right, mid.2)
      else
        match update_max right with
        | none => none
        | some (r2, rm) =>
          some (nodes.take (nodes.length / 2) ++ (mid.1, max mid.2 rm) :: r2, max mid.2 rm)
    else
      match update_max (nodes.take (nodes.length / 2)) with
      | none => none
      | some (l2, lm) =>
        if right.isEmpty then
          some (l2 ++ (mid.1, max mid.2 lm) :: right, max mid.2 lm)
        else
          match update_max right with
          | none => none
          | some (r2, rm) =>
            some (l2 ++ (mid.1, max (max mid.2 lm) rm) :: r2, max (max mid.2 lm) rm)
termination_by nodes.length
decreasing_by
  all_goals
    have hlen := congrArg List.length hmr
    simp only [List.length_drop, List.length_cons] at hlen
    have ht := List.length_take (nodes.length / 2) nodes
    omega

/-- Translation of `par_update_max` from `src/sort.rs`.  The Rust function
forks the two child updates with `rayon::join`; since both children call
the sequential `update_max` on disjoint sub-slices and `join` returns both
results, the functional content is the same four-way case split, with the
parallel case computing `max mid.2 (max lm rm)` instead of the sequential
`max (max mid.2 lm) rm`. -/
def par_update_max (nodes : List (Node K V)) : Option (List (Node K V) × K) :=
  match hmr : nodes.drop (nodes.length / 2) with
  | [] => none
  | mid :: right =>
    if (nodes.take (nodes.length / 2)).isEmpty then
      if right.isEmpty then
        some (nodes.take (nodes.length / 2) ++ (mid.1, mid.2) :: right, mid.2)
      else
        match update_max right with
        | none => none
        | some (r2, rm) =>
          some (nodes.take (nodes.length / 2) ++ (mid.1, max mid.2 rm) :: r2, max mid.2 rm)
    else
      if right.isEmpty then
        match update_max (nodes.take (nodes.length / 2)) with
        | none => none
        | some (l2, lm) =>
          some (l2 ++ (mid.1, max mid.2 lm) :: right, max mid.2 lm)
      else
        match update_max (nodes.take (nodes.length / 2)), update_max right with
        | some (l2, lm), some (r2, rm) =>
          some (l2 ++ (mid.1, max mid.2 (max lm rm)) :: r2, max mid.2 (max lm rm))
        | _, _ => none

/-- `ITree::new` from `src/sort.rs`: map every item to a node whose
augmentation field is initialised to the item's own `end`, sort the nodes
by interval `start` (the Rust `sort_unstable_by` is modelled by
`mergeSort`, a comparison sort producing a permutation sorted by `start`;
the order among equal starts is unspecified in the source), and if the
result is non-empty run `update_max` over it.  The `none` branch of
`update_max` is unreachable on non-empty input (`update_max_isSome`). -/
def ITree.new (items : List (Item K V)) : ITree K V :=
  let nodes :=
    (items.map fun it => (it, it.1.2)).mergeSort fun l r => decide (l.1.1.1 ≤ r.1.1.1)
  if nodes.isEmpty then ⟨nodes⟩
  else
    match update_max nodes with
    | none => ⟨nodes⟩
    | some (n2, _) => ⟨n2⟩

/-- `ITree::par_new` from `src/sort.rs`: as `ITree.new`, with the parallel
sort and the fork-join augmentation pass `par_update_max`.  The parallel
sort `par_sort_unstable_by` is an external unstable sort whose order among
equal starts is unspecified and independent of the sequential
`sort_unstable_by`; it is therefore modelled as a parameter `psort`,
constrained in the theorems only by the sort contract `SortSpec` (the
output is a permutation of the input ordered by interval start). -/
def ITree.par_new (psort : List (Node K V) → List (Node K V))
    (items : List (Item K V)) : ITree K V :=
  let nodes := psort (items.map fun it => (it, it.1.2))
  if nodes.isEmpty then ⟨nodes⟩
  else
    match par_update_max nodes with
    | none => ⟨nodes⟩
    | some (n2, _) => ⟨n2⟩

/-- The contract of the unstable sorts invoked with the comparator
`(lhs.0).0.start.cmp(&(rhs.0).0.start)`: the output is a permutation of
the input that is ordered by non-decreasing interval start.  Nothing
constrains the order among equal starts. -/
def SortSpec (psort : List (Node K V) → List (Node K V)) : Prop :=
  ∀ l : List (Node K V), (psort l).Perm l ∧
    (psort l).Pairwise fun a b => a.1.1.1 ≤ b.1.1.1

/-- One realization of the sort contract: the stable comparison sort used
to model `sort_unstable_by` in `ITree.new`. -/
def sortByStart (l : List (Node K V)) : List (Node K V) :=
  l.mergeSort fun a b => decide (a.1.1.1 ≤ b.1.1.1)

/-- Another realization of the sort contract, which reverses the order of
records with equal starts (a stable sort applied to the reversed input). -/
def revSort (l : List (Node K V)) : List (Node K V) :=
  l.reverse.mergeSort fun a b => decide (a.1.1.1 ≤ b.1.1.1)

/-- `ITree::new_unchecked` from `src/lib.rs`: wraps the given nodes as a
tree without any sorting, augmentation or other modification. -/
def ITree.new_unchecked (nodes : List (Node K V)) : ITree K V :=
  ⟨nodes⟩

/-- `ITree::iter` from `src/lib.rs`: iterate over all items, i.e. project
every node to its item component. -/
def ITree.iter (t : ITree K V) : List (Item K V) :=
  t.nodes.map Prod.fst

/-- Functional translation of the module-level `query` from
`src/query.rs`.  The `FnMut` handler is modelled by explicit state
passing: `h s it` returns the updated handler state and the control-flow
decision.  The slice is split positionally exactly as in `update_max`; the
handler is invoked on `mid` when
`qs < mid.maxEnd ∧ mid.start < qe ∧ qs < mid.end`, a `Break` from the
handler or from the recursive descent into `left` propagates (`?`), and
the `loop` over the remaining slice becomes tail recursion.  `none` models
the `unreachable!()` branch, which is taken exactly when the slice is
empty. -/
def query (qs qe : K) (h : σ → Item K V → σ × ControlFlow R) (s : σ)
    (nodes : List (Node K V)) : Option (σ × ControlFlow R) :=
  match hmr : nodes.drop (nodes.length / 2) with
  | [] => none
  | mid :: right =>
    match (if qs < mid.2 ∧ (mid.1).1.1 < qe ∧ qs < (mid.1).1.2 then h s mid.1
           else (s, ControlFlow.Continue)) with
    | (s₁, ControlFlow.Break r) => some (s₁, ControlFlow.Break r)
    | (s₁, ControlFlow.Continue) =>
      if decide (qs < mid.2) && !(nodes.take (nodes.length / 2)).isEmpty then
        if decide (qs < mid.2) && decide ((mid.1).1.1 < qe) && !right.isEmpty then
          match query qs qe h s₁ (nodes.take (nodes.length / 2)) with
          | none => none
          | some (s₂, ControlFlow.Break r) => some (s₂, ControlFlow.Break r)
          | some (s₂, ControlFlow.Continue) => query qs qe h s₂ right
        else
          query qs qe h s₁ (nodes.take (nodes.length / 2))
      else
        if decide (qs < mid.2) && decide ((mid.1).1.1 < qe) && !right.isEmpty then
          query qs qe h s₁ right
        else
          some (s₁, ControlFlow.Continue)
termination_by nodes.length
decreasing_by
  all_goals
    have hlen := congrArg List.length hmr
    simp only [List.length_drop, List.length_cons] at hlen
    have ht := List.length_take (nodes.length / 2) nodes
    omega

/-- Translation of the module-level `par_query` from `src/query.rs`.  When
both branches must be visited the Rust code dispatches them with
`rayon::join` and only then checks the two control flows, left first
(`left?; right?`): both branches always run to completion, an early stop
in one branch does not cancel the other.  The fork is modelled by running
the left branch and then the right branch while threading the recording
state; for handlers whose break decision is a pure function of the item
(all handlers considered here), the multiset of handler invocations does
not depend on the interleaving of the two branches. -/
def par_query (qs qe : K) (h : σ → Item K V → σ × ControlFlow R) (s : σ)
    (nodes : List (Node K V)) : Option (σ × ControlFlow R) :=
  match hmr : nodes.drop (nodes.length / 2) with
  | [] => none
  | mid :: right =>
    match (if qs < mid.2 ∧ (mid.1).1.1 < qe ∧ qs < (mid.1).1.2 then h s mid.1
           else (s, ControlFlow.Continue)) with
    | (s₁, ControlFlow.Break r) => some (s₁, ControlFlow.Break r)
    | (s₁, ControlFlow.Continue) =>
      if decide (qs < mid.2) && !(nodes.take (nodes.length / 2)).isEmpty then
        if decide (qs < mid.2) && decide ((mid.1).1.1 < qe) && !right.isEmpty then
          match par_query qs qe h s₁ (nodes.take (nodes.length / 2)) with
          | none => none
          | some (s₂, c₁) =>
            match par_query qs qe h s₂ right with
            | none => none
            | some (s₃, c₂) =>
              match c₁ with
              | ControlFlow.Break r => some (s₃, ControlFlow.Break r)
              | ControlFlow.Continue => some (s₃, c₂)
        else
          par_query qs qe h s₁ (nodes.take (nodes.length / 2))
      else
        if decide (qs < mid.2) && decide ((mid.1).1.1 < qe) && !right.isEmpty then
          par_query qs qe h s₁ right
        else
          some (s₁, ControlFlow.Continue)
termination_by nodes.length
decreasing_by
  all_goals
    have hlen := congrArg List.length hmr
    simp only [List.length_drop, List.length_cons] at hlen
    have ht := List.length_take (nodes.length / 2) nodes
    omega

/-- `ITree::query` from `src/query.rs`: skip the traversal entirely on an
empty tree, otherwise run the module-level `query`; its `Break` propagates
through `?` and its `Continue` becomes the final `Continue`, which is the
identity on the inner result. -/
def ITree.query (t : ITree K V) (qs qe : K) (h : σ → Item K V → σ × ControlFlow R)
    (s : σ) : Option (σ × ControlFlow R) :=
  if t.nodes.isEmpty then some (s, ControlFlow.Continue)
  else Sif.query qs qe h s t.nodes

/-- `ITree::par_query` from `src/query.rs`: as `ITree.query` with the
parallel traversal. -/
def ITree.par_query (t : ITree K V) (qs qe : K) (h : σ → Item K V → σ × ControlFlow R)
    (s : σ) : Option (σ × ControlFlow R) :=
  if t.nodes.isEmpty then some (s, ControlFlow.Continue)
  else Sif.par_query qs qe h s t.nodes

/-- The half-open overlap predicate `qs < e && s < qe` that the library's
own brute-force test oracle applies to every stored item. -/
def overlaps (qs qe : K) (it : Item K V) : Bool :=
  decide (qs < it.1.2) && decide (it.1.1 < qe)

/-- A handler that records every invocation by prepending the item to its
state and decides continue/break purely from the item.  Instantiating `f`
yields the always-continue collecting handler and break-on-first-match
handlers, while the recorded state exposes the multiset of handler
invocations. -/
def logHandler (f : Item K V → ControlFlow R) :
    List (Item K V) → Item K V → List (Item K V) × ControlFlow R :=
  fun s it => (it :: s, f it)

/-- The sort invariant: the nodes are ordered by non-decreasing interval
`start`. -/
def sortedByStart (nodes : List (Node K V)) : Prop :=
  nodes.Pairwise fun a b => a.1.1.1 ≤ b.1.1.1

/-- The augmentation invariant, defined recursively over the positional
split used by `update_max` and `query`: for every reachable slice, the
`maxEnd` field of the mid node is the true maximum of the interval `end`s
over all items in the slice (an upper bound that is attained). -/
inductive Augmented : List (Node K V) → Prop where
  | nil : Augmented []
  | node {nodes : List (Node K V)} {mid : Node K V} {right : List (Node K V)}
      (hmr : nodes.drop (nodes.length / 2) = mid :: right)
      (ub : ∀ x ∈ nodes, x.1.1.2 ≤ mid.2)
      (att : ∃ x ∈ nodes, x.1.1.2 = mid.2)
      (hleft : Augmented (nodes.take (nodes.length / 2)))
      (hright : Augmented right) : Augmented nodes


/-! ## Proof infrastructure

Helper notions that are not part of the source translation: the positional
split facts, the list of handler invocations a traversal performs
(`visits`), and the sequential consumption of such a list by a
recording handler (`process`). -/

/-- The invocation list of the pruning traversal: the items on which
`query` invokes its handler, in traversal order (mid first, then the left
descent, then the right slice), ignoring early termination. -/
def visits (qs qe : K) (nodes : List (Node K V)) : List (Item K V) :=
  match hmr : nodes.drop (nodes.length / 2) with
  | [] => []
  | mid :: right =>
    (if qs < mid.2 ∧ (mid.1).1.1 < qe ∧ qs < (mid.1).1.2 then [mid.1] else []) ++
    (if decide (qs < mid.2) && !(nodes.take (nodes.length / 2)).isEmpty then
        visits qs qe (nodes.take (nodes.length / 2)) else []) ++
    (if decide (qs < mid.2) && decide ((mid.1).1.1 < qe) && !right.isEmpty then
        visits qs qe right else [])
termination_by nodes.length
decreasing_by
  all_goals
    have hlen := congrArg List.length hmr
    simp only [List.length_drop, List.length_cons] at hlen
    have ht := List.length_take (nodes.length / 2) nodes
    omega

/-- Sequential consumption of an invocation list by the recording handler
`logHandler f`: prepend each item to the state, stopping at the first item
on which `f` breaks. -/
def process (f : Item K V → ControlFlow R) (s : List (Item K V)) :
    List (Item K V) → List (Item K V) × ControlFlow R
  | [] => (s, ControlFlow.Continue)
  | it :: rest =>
    match f it with
    | ControlFlow.Break r => (it :: s, ControlFlow.Break r)
    | ControlFlow.Continue => process f (it :: s) rest

theorem drop_half_nil {A : Type} {l : List A} (h : l.drop (l.length / 2) = []) :
    l = [] := by
  rw [List.drop_eq_nil_iff] at h
  have hz : l.length = 0 := by omega
  exact List.length_eq_zero.mp hz

theorem exists_mid {A : Type} {l : List A} (h : l ≠ []) :
    ∃ m r, l.drop (l.length / 2) = m :: r := by
  cases hd : l.drop (l.length / 2) with
  | nil => exact absurd (drop_half_nil hd) h
  | cons m r => exact ⟨m, r, rfl⟩

theorem split_decomp {A : Type} {l : List A} {m : A} {r : List A}
    (h : l.drop (l.length / 2) = m :: r) :
    l = l.take (l.length / 2) ++ m :: r := by
  conv_lhs => rw [← List.take_append_drop (l.length / 2) l]
  rw [h]

theorem take_half_length {A : Type} {l : List A} {m : A} {r : List A}
    (h : l.drop (l.length / 2) = m :: r) :
    (l.take (l.length / 2)).length = l.length / 2 := by
  have hlen := congrArg List.length h
  simp only [List.length_drop, List.length_cons] at hlen
  have ht := List.length_take (l.length / 2) l
  omega

theorem split_lengths {A : Type} {l : List A} {m : A} {r : List A}
    (h : l.drop (l.length / 2) = m :: r) :
    (l.take (l.length / 2)).length < l.length ∧ r.length < l.length ∧
      l.length = (l.take (l.length / 2)).length + r.length + 1 := by
  have hlen := congrArg List.length h
  simp only [List.length_drop, List.length_cons] at hlen
  have ht := List.length_take (l.length / 2) l
  refine ⟨by omega, by omega, by omega⟩

/-- Re-splitting a list of the shape `L ++ m :: R` at its midpoint recovers
`L`, `m` and `R`, provided `L` has exactly half the total length. -/
theorem split_of_shape {A : Type} {L R : List A} {m : A}
    (h : L.length = (L ++ m :: R).length / 2) :
    (L ++ m :: R).take ((L ++ m :: R).length / 2) = L ∧
      (L ++ m :: R).drop ((L ++ m :: R).length / 2) = m :: R :=
  ⟨List.take_left' h, List.drop_left' h⟩


/-! Step equations for the functions defined by the positional split;
each rewrites one unfolding once the split of the argument is known. -/

theorem update_max_eq_none {nodes : List (Node K V)}
    (h : nodes.drop (nodes.length / 2) = []) : update_max nodes = none := by
  rw [update_max.eq_def]
  split
  next => rfl
  next mid right heq => rw [h] at heq; cases heq

theorem update_max_eq_cons {nodes : List (Node K V)} {mid : Node K V}
    {right : List (Node K V)} (hmr : nodes.drop (nodes.length / 2) = mid :: right) :
    update_max nodes =
      (if (nodes.take (nodes.length / 2)).isEmpty then
        if right.isEmpty then
          some (nodes.take (nodes.length / 2) ++ (mid.1, mid.2) :: right, mid.2)
        else
          match update_max right with
          | none => none
          | some (r2, rm) =>
            some (nodes.take (nodes.length / 2) ++ (mid.1, max mid.2 rm) :: r2, max mid.2 rm)
      else
        match update_max (nodes.take (nodes.length / 2)) with
        | none => none
        | some (l2, lm) =>
          if right.isEmpty then
            some (l2 ++ (mid.1, max mid.2 lm) :: right, max mid.2 lm)
          else
            match update_max right with
            | none => none
            | some (r2, rm) =>
              some (l2 ++ (mid.1, max (max mid.2 lm) rm) :: r2, max (max mid.2 lm) rm)) := by
  rw [update_max.eq_def]
  split
  next heq => rw [hmr] at heq; cases heq
  next mid1 right1 heq =>
    rw [hmr] at heq; injection heq with h1 h2; subst h1; subst h2; rfl

theorem par_update_max_eq_none {nodes : List (Node K V)}
    (h : nodes.drop (nodes.length / 2) = []) : par_update_max nodes = none := by
  rw [par_update_max.eq_def]
  split
  next => rfl
  next mid right heq => rw [h] at heq; cases heq

theorem par_update_max_eq_cons {nodes : List (Node K V)} {mid : Node K V}
    {right : List (Node K V)} (hmr : nodes.drop (nodes.length / 2) = mid :: right) :
    par_update_max nodes =
      (if (nodes.take (nodes.length / 2)).isEmpty then
        if right.isEmpty then
          some (nodes.take (nodes.length / 2) ++ (mid.1, mid.2) :: right, mid.2)
        else
          match update_max right with
          | none => none
          | some (r2, rm) =>
            some (nodes.take (nodes.length / 2) ++ (mid.1, max mid.2 rm) :: r2, max mid.2 rm)
      else
        if right.isEmpty then
          match update_max (nodes.take (nodes.length / 2)) with
          | none => none
          | some (l2, lm) =>
            some (l2 ++ (mid.1, max mid.2 lm) :: right, max mid.2 lm)
        else
          match update_max (nodes.take (nodes.length / 2)), update_max right with
          | some (l2, lm), some (r2, rm) =>
            some (l2 ++ (mid.1, max mid.2 (max lm rm)) :: r2, max mid.2 (max lm rm))
          | _, _ => none) := by
  rw [par_update_max.eq_def]
  split
  next heq => rw [hmr] at heq; cases heq
  next mid1 right1 heq =>
    rw [hmr] at heq; injection heq with h1 h2; subst h1; subst h2; rfl

theorem query_eq_none {nodes : List (Node K V)} {qs qe : K}
    {h : σ → Item K V → σ × ControlFlow R} {s : σ}
    (hd : nodes.drop (nodes.length / 2) = []) : query qs qe h s nodes = none := by
  rw [query.eq_def]
  split
  next => rfl
  next mid right heq => rw [hd] at heq; cases heq

theorem query_eq_cons {nodes : List (Node K V)} {mid : Node K V}
    {right : List (Node K V)} {qs qe : K} {h : σ → Item K V → σ × ControlFlow R} {s : σ}
    (hmr : nodes.drop (nodes.length / 2) = mid :: right) :
    query qs qe h s nodes =
      (match (if qs < mid.2 ∧ (mid.1).1.1 < qe ∧ qs < (mid.1).1.2 then h s mid.1
             else (s, ControlFlow.Continue)) with
      | (s₁, ControlFlow.Break r) => some (s₁, ControlFlow.Break r)
      | (s₁, ControlFlow.Continue) =>
        if decide (qs < mid.2) && !(nodes.take (nodes.length / 2)).isEmpty then
          if decide (qs < mid.2) && decide ((mid.1).1.1 < qe) && !right.isEmpty then
            match query qs qe h s₁ (nodes.take (nodes.length / 2)) with
            | none => none
            | some (s₂, ControlFlow.Break r) => some (s₂, ControlFlow.Break r)
            | some (s₂, ControlFlow.Continue) => query qs qe h s₂ right
          else
            query qs qe h s₁ (nodes.take (nodes.length / 2))
        else
          if decide (qs < mid.2) && decide ((mid.1).1.1 < qe) && !right.isEmpty then
            query qs qe h s₁ right
          else
            some (s₁, ControlFlow.Continue)) := by
  rw [query.eq_def]
  split
  next heq => rw [hmr] at heq; cases heq
  next mid1 right1 heq =>
    rw [hmr] at heq; injection heq with h1 h2; subst h1; subst h2; rfl

theorem par_query_eq_none {nodes : List (Node K V)} {qs qe : K}
    {h : σ → Item K V → σ × ControlFlow R} {s : σ}
    (hd : nodes.drop (nodes.length / 2) = []) : par_query qs qe h s nodes = none := by
  rw [par_query.eq_def]
  split
  next => rfl
  next mid right heq => rw [hd] at heq; cases heq

theorem par_query_eq_cons {nodes : List (Node K V)} {mid : Node K V}
    {right : List (Node K V)} {qs qe : K} {h : σ → Item K V → σ × ControlFlow R} {s : σ}
    (hmr : nodes.drop (nodes.length / 2) = mid :: right) :
    par_query qs qe h s nodes =
      (match (if qs < mid.2 ∧ (mid.1).1.1 < qe ∧ qs < (mid.1).1.2 then h s mid.1
             else (s, ControlFlow.Continue)) with
      | (s₁, ControlFlow.Break r) => some (s₁, ControlFlow.Break r)
      | (s₁, ControlFlow.Continue) =>
        if decide (qs < mid.2) && !(nodes.take (nodes.length / 2)).isEmpty then
          if decide (qs < mid.2) && decide ((mid.1).1.1 < qe) && !right.isEmpty then
            match par_query qs qe h s₁ (nodes.take (nodes.length / 2)) with
            | none => none
            | some (s₂, c₁) =>
              match par_query qs qe h s₂ right with
              | none => none
              | some (s₃, c₂) =>
                match c₁ with
                | ControlFlow.Break r => some (s₃, ControlFlow.Break r)
                | ControlFlow.Continue => some (s₃, c₂)
          else
            par_query qs qe h s₁ (nodes.take (nodes.length / 2))
        else
          if decide (qs < mid.2) && decide ((mid.1).1.1 < qe) && !right.isEmpty then
            par_query qs qe h s₁ right
          else
            some (s₁, ControlFlow.Continue)) := by
  rw [par_query.eq_def]
  split
  next heq => rw [hmr] at heq; cases heq
  next mid1 right1 heq =>
    rw [hmr] at heq; injection heq with h1 h2; subst h1; subst h2; rfl

theorem visits_eq_none {nodes : List (Node K V)} {qs qe : K}
    (hd : nodes.drop (nodes.length / 2) = []) : visits qs qe nodes = [] := by
  rw [visits.eq_def]
  split
  next => rfl
  next mid right heq => rw [hd] at heq; cases heq

theorem visits_eq_cons {nodes : List (Node K V)} {mid : Node K V}
    {right : List (Node K V)} {qs qe : K}
    (hmr : nodes.drop (nodes.length / 2) = mid :: right) :
    visits qs qe nodes =
      (if qs < mid.2 ∧ (mid.1).1.1 < qe ∧ qs < (mid.1).1.2 then [mid.1] else []) ++
      (if decide (qs < mid.2) && !(nodes.take (nodes.length / 2)).isEmpty then
          visits qs qe (nodes.take (nodes.length / 2)) else []) ++
      (if decide (qs < mid.2) && decide ((mid.1).1.1 < qe) && !right.isEmpty then
          visits qs qe right else []) := by
  rw [visits.eq_def]
  split
  next heq => rw [hmr] at heq; cases heq
  next mid1 right1 heq =>
    rw [hmr] at heq; injection heq with h1 h2; subst h1; subst h2; rfl

/-- Strong induction on the length of a list. -/
theorem list_length_induction {A : Type} {P : List A → Prop}
    (step : ∀ l, (∀ l2, l2.length < l.length → P l2) → P l) (l : List A) : P l := by
  have H : ∀ n (l2 : List A), l2.length ≤ n → P l2 := by
    intro n
    induction n with
    | zero => exact fun l2 h2 => step l2 (fun l3 h3 => absurd h3 (by omega))
    | succ n IHn => exact fun l2 h2 => step l2 (fun l3 h3 => IHn l3 (by omega))
  exact H l.length l le_rfl

theorem fst_mem_transport {l2 L : List (Node K V)}
    (hf : l2.map Prod.fst = L.map Prod.fst) :
    ∀ x ∈ l2, ∃ y ∈ L, y.1 = x.1 := by
  intro x hx
  have hm : x.1 ∈ L.map Prod.fst := hf ▸ List.mem_map_of_mem Prod.fst hx
  obtain ⟨y, hy, he⟩ := List.mem_map.mp hm
  exact ⟨y, hy, he⟩

/-- Assembling the augmentation invariant for an updated slice
`l2 ++ (mid.1, m) :: r2` from the facts produced by the recursive calls of
`update_max`. -/
theorem augment_build {L R l r : List (Node K V)} {mid : Node K V} {m : K}
    (hhalf : L.length = (L ++ mid :: R).length / 2)
    (FL : l.map Prod.fst = L.map Prod.fst)
    (FR : r.map Prod.fst = R.map Prod.fst)
    (AL : Augmented l) (AR : Augmented r)
    (BL : ∀ x ∈ L, x.1.1.2 ≤ m) (BR : ∀ x ∈ R, x.1.1.2 ≤ m)
    (BM : mid.1.1.2 ≤ m)
    (ATT : ∃ x ∈ L ++ mid :: R, x.1.1.2 = m) :
    (l ++ (mid.1, m) :: r).map Prod.fst = (L ++ mid :: R).map Prod.fst ∧
      Augmented (l ++ (mid.1, m) :: r) := by
  have hlenL : l.length = L.length := by
    have := congrArg List.length FL
    simpa using this
  have hlenR : r.length = R.length := by
    have := congrArg List.length FR
    simpa using this
  have hfst : (l ++ (mid.1, m) :: r).map Prod.fst = (L ++ mid :: R).map Prod.fst := by
    simp only [List.map_append, List.map_cons, FL, FR]
  have hhalf2 : l.length = (l ++ (mid.1, m) :: r).length / 2 := by
    simp only [List.length_append, List.length_cons, hlenL, hlenR]
    simp only [List.length_append, List.length_cons] at hhalf
    omega
  obtain ⟨htake, hdrop⟩ := split_of_shape hhalf2
  refine ⟨hfst, Augmented.node hdrop ?_ ?_ (by rw [htake]; exact AL) AR⟩
  · intro x hx
    rcases List.mem_append.mp hx with hx | hx
    · obtain ⟨y, hy, he⟩ := fst_mem_transport FL x hx
      calc x.1.1.2 = y.1.1.2 := by rw [he]
        _ ≤ m := BL y hy
    · rcases List.mem_cons.mp hx with hx | hx
      · rw [hx]; exact BM
      · obtain ⟨y, hy, he⟩ := fst_mem_transport FR x hx
        calc x.1.1.2 = y.1.1.2 := by rw [he]
          _ ≤ m := BR y hy
  · obtain ⟨y, hy, he⟩ := ATT
    have hm : y.1 ∈ (l ++ (mid.1, m) :: r).map Prod.fst := by
      rw [hfst]
      exact List.mem_map_of_mem Prod.fst hy
    obtain ⟨x, hx, hxe⟩ := List.mem_map.mp hm
    exact ⟨x, hx, by rw [hxe, he]⟩

/-- Full correctness of `update_max` on slices whose augmentation fields
are initialised to the items' own ends (as `ITree.new` does): the call
succeeds, only the augmentation fields change, the returned key is the
true maximum interval end of the slice, and the result satisfies the
augmentation invariant. -/
theorem update_max_spec (nodes : List (Node K V)) (hne : nodes ≠ [])
    (hinit : ∀ x ∈ nodes, x.2 = x.1.1.2) :
    ∃ nodes2 m, update_max nodes = some (nodes2, m) ∧
      nodes2.map Prod.fst = nodes.map Prod.fst ∧
      (∀ x ∈ nodes, x.1.1.2 ≤ m) ∧ (∃ x ∈ nodes, x.1.1.2 = m) ∧
      Augmented nodes2 := by
  revert hne hinit
  induction nodes using list_length_induction with
  | step nodes IH =>
  intro hne hinit
  obtain ⟨mid, right, hmr⟩ := exists_mid hne
  have hdec := split_decomp hmr
  have hmid : mid ∈ nodes := by
    rw [hdec]; exact List.mem_append_right _ (List.mem_cons_self _ _)
  have hmide : mid.2 = mid.1.1.2 := hinit mid hmid
  have hlt := split_lengths hmr
  have hhalf : (nodes.take (nodes.length / 2)).length = (nodes.take (nodes.length / 2) ++ mid :: right).length / 2 := by
    rw [← hdec]
    exact take_half_length hmr
  rw [update_max.eq_def]
  split
  next heq => rw [hmr] at heq; cases heq
  next mid1 right1 heq =>
    rw [hmr] at heq
    injection heq with h1 h2
    subst h1; subst h2
    by_cases hL : (nodes.take (nodes.length / 2)).isEmpty
    · have hLnil : nodes.take (nodes.length / 2) = [] := List.isEmpty_iff.mp hL
      by_cases hR : right.isEmpty
      · -- single node slice
        have hRnil : right = [] := List.isEmpty_iff.mp hR
        rw [if_pos hL, if_pos hR]
        refine ⟨_, _, rfl, ?_, ?_, ?_, ?_⟩
        · rw [hdec, hLnil, hRnil]
          simp
        · intro x hx
          rw [hdec, hLnil, hRnil] at hx
          simp only [List.nil_append, List.mem_singleton] at hx
          rw [hx, ← hmide]
        · exact ⟨mid, hmid, hmide.symm⟩
        · have := augment_build (l := nodes.take (nodes.length / 2)) (r := right)
            (m := mid.2) hhalf rfl rfl (hLnil ▸ Augmented.nil) (hRnil ▸ Augmented.nil)
            (by rw [hLnil]; intro x hx; cases hx) (by rw [hRnil]; intro x hx; cases hx)
            (le_of_eq hmide.symm) ⟨mid, List.mem_append_right _ (List.mem_cons_self _ _), hmide.symm⟩
          exact this.2
      · -- left empty, right nonempty
        have hRne : right ≠ [] := by
          intro hc; rw [hc] at hR; exact hR (by rfl)
        have hsubR : ∀ x ∈ right, x ∈ nodes := by
          intro x hx
          rw [hdec]; exact List.mem_append_right _ (List.mem_cons_of_mem _ hx)
        obtain ⟨r2, rm, hrun, hrf, hrb, hra, hraug⟩ :=
          IH right hlt.2.1 hRne (fun x hx => hinit x (hsubR x hx))
        rw [if_pos hL, if_neg hR, hrun]
        refine ⟨_, _, rfl, ?_, ?_, ?_, ?_⟩
        · have := augment_build (l := nodes.take (nodes.length / 2)) (m := max mid.2 rm)
            hhalf rfl hrf (hLnil ▸ Augmented.nil) hraug
            (by rw [hLnil]; intro x hx; cases hx)
            (fun x hx => le_trans (hrb x hx) (le_max_right _ _))
            (hmide ▸ le_max_left _ _)
            ?att
          · rw [← hdec] at this; exact this.1
          case att =>
            rcases max_choice mid.2 rm with hc | hc
            · exact ⟨mid, List.mem_append_right _ (List.mem_cons_self _ _), by rw [hc, ← hmide]⟩
            · obtain ⟨y, hy, hye⟩ := hra
              exact ⟨y, List.mem_append_right _ (List.mem_cons_of_mem _ hy), by rw [hc, hye]⟩
        · intro x hx
          rw [hdec] at hx
          rcases List.mem_append.mp hx with hx | hx
          · rw [hLnil] at hx; cases hx
          · rcases List.mem_cons.mp hx with hx | hx
            · rw [hx]; exact hmide ▸ le_max_left _ _
            · exact le_trans (hrb x hx) (le_max_right _ _)
        · rcases max_choice mid.2 rm with hc | hc
          · exact ⟨mid, hmid, by rw [hc, ← hmide]⟩
          · obtain ⟨y, hy, hye⟩ := hra
            exact ⟨y, hsubR y hy, by rw [hc, hye]⟩
        · have := augment_build (l := nodes.take (nodes.length / 2)) (m := max mid.2 rm)
            hhalf rfl hrf (hLnil ▸ Augmented.nil) hraug
            (by rw [hLnil]; intro x hx; cases hx)
            (fun x hx => le_trans (hrb x hx) (le_max_right _ _))
            (hmide ▸ le_max_left _ _)
            (by
              rcases max_choice mid.2 rm with hc | hc
              · exact ⟨mid, List.mem_append_right _ (List.mem_cons_self _ _), by rw [hc, ← hmide]⟩
              · obtain ⟨y, hy, hye⟩ := hra
                exact ⟨y, List.mem_append_right _ (List.mem_cons_of_mem _ hy), by rw [hc, hye]⟩)
          exact this.2
    · -- left nonempty
      have hLne : nodes.take (nodes.length / 2) ≠ [] := by
        intro hc; rw [hc] at hL; exact hL (by rfl)
      have hsubL : ∀ x ∈ nodes.take (nodes.length / 2), x ∈ nodes :=
        fun x hx => List.take_subset _ _ hx
      obtain ⟨l2, lm, hlrun, hlf, hlb, hla, hlaug⟩ :=
        IH (nodes.take (nodes.length / 2)) hlt.1 hLne
          (fun x hx => hinit x (hsubL x hx))
      rw [if_neg hL, hlrun]
      simp only []
      by_cases hR : right.isEmpty
      · have hRnil : right = [] := List.isEmpty_iff.mp hR
        rw [if_pos hR]
        refine ⟨_, _, rfl, ?_, ?_, ?_, ?_⟩
        · have := augment_build (r := right) (m := max mid.2 lm)
            hhalf hlf rfl hlaug (hRnil ▸ Augmented.nil)
            (fun x hx => le_trans (hlb x hx) (le_max_right _ _))
            (by rw [hRnil]; intro x hx; cases hx)
            (hmide ▸ le_max_left _ _)
            (by
              rcases max_choice mid.2 lm with hc | hc
              · exact ⟨mid, List.mem_append_right _ (List.mem_cons_self _ _), by rw [hc, ← hmide]⟩
              · obtain ⟨y, hy, hye⟩ := hla
                exact ⟨y, List.mem_append_left _ hy, by rw [hc, hye]⟩)
          rw [← hdec] at this; exact this.1
        · intro x hx
          rw [hdec] at hx
          rcases List.mem_append.mp hx with hx | hx
          · exact le_trans (hlb x hx) (le_max_right _ _)
          · rcases List.mem_cons.mp hx with hx | hx
            · rw [hx]; exact hmide ▸ le_max_left _ _
            · rw [hRnil] at hx; cases hx
        · rcases max_choice mid.2 lm with hc | hc
          · exact ⟨mid, hmid, by rw [hc, ← hmide]⟩
          · obtain ⟨y, hy, hye⟩ := hla
            exact ⟨y, hsubL y hy, by rw [hc, hye]⟩
        · have := augment_build (r := right) (m := max mid.2 lm)
            hhalf hlf rfl hlaug (hRnil ▸ Augmented.nil)
            (fun x hx => le_trans (hlb x hx) (le_max_right _ _))
            (by rw [hRnil]; intro x hx; cases hx)
            (hmide ▸ le_max_left _ _)
            (by
              rcases max_choice mid.2 lm with hc | hc
              · exact ⟨mid, List.mem_append_right _ (List.mem_cons_self _ _), by rw [hc, ← hmide]⟩
              · obtain ⟨y, hy, hye⟩ := hla
                exact ⟨y, List.mem_append_left _ hy, by rw [hc, hye]⟩)
          exact this.2
      · have hRne : right ≠ [] := by
          intro hc; rw [hc] at hR; exact hR (by rfl)
        have hsubR : ∀ x ∈ right, x ∈ nodes := by
          intro x hx
          rw [hdec]; exact List.mem_append_right _ (List.mem_cons_of_mem _ hx)
        obtain ⟨r2, rm, hrun, hrf, hrb, hra, hraug⟩ :=
          IH right hlt.2.1 hRne (fun x hx => hinit x (hsubR x hx))
        rw [if_neg hR, hrun]
        have hatt : ∃ x ∈ nodes.take (nodes.length / 2) ++ mid :: right,
            x.1.1.2 = max (max mid.2 lm) rm := by
          rcases max_choice (max mid.2 lm) rm with hc | hc
          · rcases max_choice mid.2 lm with hc2 | hc2
            · exact ⟨mid, List.mem_append_right _ (List.mem_cons_self _ _), by rw [hc, hc2, ← hmide]⟩
            · obtain ⟨y, hy, hye⟩ := hla
              exact ⟨y, List.mem_append_left _ hy, by rw [hc, hc2, hye]⟩
          · obtain ⟨y, hy, hye⟩ := hra
            exact ⟨y, List.mem_append_right _ (List.mem_cons_of_mem _ hy), by rw [hc, hye]⟩
        have hbuild := augment_build (m := max (max mid.2 lm) rm)
          hhalf hlf hrf hlaug hraug
          (fun x hx => le_trans (hlb x hx) (le_trans (le_max_right _ _) (le_max_left _ _)))
          (fun x hx => le_trans (hrb x hx) (le_max_right _ _))
          (le_trans (hmide ▸ le_max_left mid.2 lm) (le_max_left _ _))
          hatt
        refine ⟨_, _, rfl, ?_, ?_, ?_, hbuild.2⟩
        · rw [← hdec] at hbuild; exact hbuild.1
        · intro x hx
          rw [hdec] at hx
          rcases List.mem_append.mp hx with hx | hx
          · exact le_trans (hlb x hx) (le_trans (le_max_right _ _) (le_max_left _ _))
          · rcases List.mem_cons.mp hx with hx | hx
            · rw [hx]
              exact le_trans (hmide ▸ le_max_left mid.2 lm) (le_max_left _ _)
            · exact le_trans (hrb x hx) (le_max_right _ _)
        · obtain ⟨y, hy, hye⟩ := hatt
          rw [← hdec] at hy
          exact ⟨y, hy, hye⟩

/-- The fork-join augmentation pass computes exactly the same result as
the sequential one: the four-way case split agrees branch by branch, the
fully parallel branch by associativity of `max`. -/
theorem par_update_max_eq (nodes : List (Node K V)) :
    par_update_max nodes = update_max nodes := by
  cases hmr : nodes.drop (nodes.length / 2) with
  | nil => rw [par_update_max_eq_none hmr, update_max_eq_none hmr]
  | cons mid right =>
    rw [par_update_max_eq_cons hmr, update_max_eq_cons hmr]
    cases hu : update_max (nodes.take (nodes.length / 2)) <;>
      cases hv : update_max right <;>
        by_cases hL : (nodes.take (nodes.length / 2)).isEmpty <;>
          by_cases hR : right.isEmpty <;>
            simp [hu, hv, hL, hR, max_assoc]

/-- The sort invariant only depends on the item components, so it
transports along equality of the projections. -/
theorem sortedByStart_of_fst_eq {l l' : List (Node K V)}
    (hf : l.map Prod.fst = l'.map Prod.fst) (h : sortedByStart l') :
    sortedByStart l := by
  have key : ∀ t : List (Node K V), sortedByStart t ↔
      ((t.map Prod.fst).map fun it => it.1.1).Pairwise (· ≤ ·) := by
    intro t
    rw [List.pairwise_map, List.pairwise_map]
    exact Iff.rfl
  rw [key, hf, ← key]
  exact h

/-- Everything `ITree.new` guarantees: the node array is sorted by start,
satisfies the augmentation invariant, and its items are a permutation of
the input items. -/
theorem new_spec (items : List (Item K V)) :
    sortedByStart (ITree.new items).nodes ∧ Augmented (ITree.new items).nodes ∧
      ((ITree.new items).nodes.map Prod.fst).Perm items := by
  have hperm : ((items.map fun it => (it, it.1.2)).mergeSort fun l r =>
        decide (l.1.1.1 ≤ r.1.1.1)).Perm (items.map fun it => (it, it.1.2)) :=
    List.mergeSort_perm _ _
  have hfst : (((items.map fun it => (it, it.1.2)).mergeSort fun l r =>
        decide (l.1.1.1 ≤ r.1.1.1)).map Prod.fst).Perm items := by
    have h2 := hperm.map Prod.fst
    have h3 : (items.map fun it => (it, it.1.2)).map Prod.fst = items := by
      rw [List.map_map]
      exact List.map_id items
    rw [h3] at h2
    exact h2
  have hsorted : sortedByStart ((items.map fun it => (it, it.1.2)).mergeSort fun l r =>
      decide (l.1.1.1 ≤ r.1.1.1)) := by
    have h1 := @List.sorted_mergeSort (Node K V)
      (fun l r => decide (l.1.1.1 ≤ r.1.1.1))
      (fun a b c hab hbc => by
        simp only [decide_eq_true_eq] at hab hbc ⊢
        exact le_trans hab hbc)
      (fun a b => by
        simp only [Bool.or_eq_true, decide_eq_true_eq]
        exact le_total _ _)
      (items.map fun it => (it, it.1.2))
    exact h1.imp fun hab => of_decide_eq_true hab
  have hinit : ∀ x ∈ (items.map fun it => (it, it.1.2)).mergeSort fun l r =>
      decide (l.1.1.1 ≤ r.1.1.1), x.2 = x.1.1.2 := by
    intro x hx
    rw [List.mem_mergeSort] at hx
    obtain ⟨it, hit, he⟩ := List.mem_map.mp hx
    rw [← he]
  by_cases hS : ((items.map fun it => (it, it.1.2)).mergeSort fun l r =>
      decide (l.1.1.1 ≤ r.1.1.1)).isEmpty
  · have hnil : (items.map fun it => (it, it.1.2)).mergeSort (fun l r =>
        decide (l.1.1.1 ≤ r.1.1.1)) = [] := List.isEmpty_iff.mp hS
    have hnodes : (ITree.new items).nodes = [] := by
      simp only [ITree.new]
      rw [if_pos hS]
      exact hnil
    rw [hnodes]
    refine ⟨List.Pairwise.nil, Augmented.nil, ?_⟩
    rw [hnil] at hfst
    exact hfst
  · have hne : (items.map fun it => (it, it.1.2)).mergeSort (fun l r =>
        decide (l.1.1.1 ≤ r.1.1.1)) ≠ [] := by
      intro hc; rw [hc] at hS; exact hS (by rfl)
    obtain ⟨nodes2, m, hrun, hf, _, _, haug⟩ := update_max_spec _ hne hinit
    have hnodes : (ITree.new items).nodes = nodes2 := by
      simp only [ITree.new]
      rw [if_neg hS, hrun]
    rw [hnodes]
    refine ⟨sortedByStart_of_fst_eq hf hsorted, haug, ?_⟩
    rw [hf]
    exact hfst

/-- Split a true left-descent guard into its components. -/
theorem gl_parts {qs : K} {l : List (Node K V)} {m : K}
    (h : (decide (qs < m) && !l.isEmpty) = true) : qs < m ∧ l ≠ [] := by
  simp only [Bool.and_eq_true, Bool.not_eq_true', decide_eq_true_eq,
    List.isEmpty_eq_false] at h
  exact h

/-- Split a true right-descent guard into its components. -/
theorem gr_parts {qs qe ms : K} {l : List (Node K V)} {m : K}
    (h : (decide (qs < m) && decide (ms < qe) && !l.isEmpty) = true) :
    qs < m ∧ ms < qe ∧ l ≠ [] := by
  simp only [Bool.and_eq_true, Bool.not_eq_true', decide_eq_true_eq,
    List.isEmpty_eq_false] at h
  exact ⟨h.1.1, h.1.2, h.2⟩

/-- The sequential traversal never reaches its `unreachable!()` branch on a
non-empty slice: the top-level split is well-defined and every recursive
call is guarded by a non-emptiness test. -/
theorem query_isSome (qs qe : K) (h : σ → Item K V → σ × ControlFlow R) :
    ∀ nodes : List (Node K V), nodes ≠ [] → ∀ s, (query qs qe h s nodes).isSome := by
  intro nodes
  induction nodes using list_length_induction with
  | step nodes IH =>
  intro hne s
  obtain ⟨mid, right, hmr⟩ := exists_mid hne
  have hlt := split_lengths hmr
  rw [query_eq_cons hmr]
  cases hstep : (if qs < mid.2 ∧ (mid.1).1.1 < qe ∧ qs < (mid.1).1.2 then h s mid.1
      else (s, ControlFlow.Continue)) with
  | mk s₁ c =>
  cases c with
  | Break r => simp
  | Continue =>
    simp only []
    by_cases hgl : (decide (qs < mid.2) && !(nodes.take (nodes.length / 2)).isEmpty) = true
    · rw [if_pos hgl]
      have hLne := (gl_parts hgl).2
      by_cases hgr : (decide (qs < mid.2) && decide ((mid.1).1.1 < qe) && !right.isEmpty) = true
      · rw [if_pos hgr]
        have hRne := (gr_parts hgr).2.2
        have h1 := IH (nodes.take (nodes.length / 2)) hlt.1 hLne s₁
        cases hq : query qs qe h s₁ (nodes.take (nodes.length / 2)) with
        | none => rw [hq] at h1; cases h1
        | some p =>
          obtain ⟨s₂, c₂⟩ := p
          cases c₂ with
          | Break r => simp
          | Continue =>
            simp only []
            exact IH right hlt.2.1 hRne s₂
      · rw [if_neg hgr]
        exact IH (nodes.take (nodes.length / 2)) hlt.1 hLne s₁
    · rw [if_neg hgl]
      by_cases hgr : (decide (qs < mid.2) && decide ((mid.1).1.1 < qe) && !right.isEmpty) = true
      · rw [if_pos hgr]
        exact IH right hlt.2.1 (gr_parts hgr).2.2 s₁
      · rw [if_neg hgr]
        simp

/-- Consuming a concatenated invocation list: process the first part, stop
if it broke, otherwise continue with the second part. -/
theorem process_append (f : Item K V → ControlFlow R) (s : List (Item K V))
    (a b : List (Item K V)) :
    process f s (a ++ b) =
      (match process f s a with
      | (s₁, ControlFlow.Break r) => (s₁, ControlFlow.Break r)
      | (s₁, ControlFlow.Continue) => process f s₁ b) := by
  induction a generalizing s with
  | nil => simp [process]
  | cons it rest IH =>
    simp only [List.cons_append, process]
    cases f it with
    | Break r => rfl
    | Continue => exact IH (it :: s)

/-- A never-breaking handler consumes the whole invocation list and
records it in reverse order. -/
theorem process_continue (s v : List (Item K V)) :
    process (fun _ => (ControlFlow.Continue : ControlFlow R)) s v =
      (v.reverse ++ s, ControlFlow.Continue) := by
  induction v generalizing s with
  | nil => simp [process]
  | cons it rest IH =>
    simp only [process, IH, List.reverse_cons, List.append_assoc, List.cons_append,
      List.nil_append]

/-- Bridge between the traversal and its invocation list: running `query`
with a recording handler is exactly processing the `visits` list.  This
holds for every node array, invariants or not. -/
theorem query_eq_process (qs qe : K) (f : Item K V → ControlFlow R) :
    ∀ nodes : List (Node K V), nodes ≠ [] → ∀ s,
      query qs qe (logHandler f) s nodes = some (process f s (visits qs qe nodes)) := by
  intro nodes
  induction nodes using list_length_induction with
  | step nodes IH =>
  intro hne s
  obtain ⟨mid, right, hmr⟩ := exists_mid hne
  have hlt := split_lengths hmr
  rw [query_eq_cons hmr, visits_eq_cons hmr]
  rw [process_append, process_append]
  cases hstep : (if qs < mid.2 ∧ (mid.1).1.1 < qe ∧ qs < (mid.1).1.2 then
      logHandler f s mid.1 else (s, ControlFlow.Continue)) with
  | mk s₁ c =>
  have hA : process f s (if qs < mid.2 ∧ (mid.1).1.1 < qe ∧ qs < (mid.1).1.2 then
      [mid.1] else []) = (s₁, c) := by
    by_cases hP : qs < mid.2 ∧ (mid.1).1.1 < qe ∧ qs < (mid.1).1.2
    · rw [if_pos hP] at hstep ⊢
      simp only [logHandler, Prod.mk.injEq] at hstep
      cases hfm : f mid.1 with
      | Break r =>
        simp only [process, hfm]
        rw [hfm] at hstep
        rw [hstep.1, hstep.2]
      | Continue =>
        simp only [process, hfm]
        rw [hfm] at hstep
        rw [hstep.1, hstep.2]
    · rw [if_neg hP] at hstep ⊢
      injection hstep with h1 h2
      rw [process, h1, h2]
  rw [hA]
  cases c with
  | Break r => simp
  | Continue =>
    simp only []
    by_cases hgl : (decide (qs < mid.2) && !(nodes.take (nodes.length / 2)).isEmpty) = true
    · rw [if_pos hgl, if_pos hgl]
      have hLne := (gl_parts hgl).2
      have hql := IH (nodes.take (nodes.length / 2)) hlt.1 hLne s₁
      by_cases hgr : (decide (qs < mid.2) && decide ((mid.1).1.1 < qe) && !right.isEmpty) = true
      · rw [if_pos hgr, if_pos hgr]
        have hRne := (gr_parts hgr).2.2
        rw [hql]
        cases hpl : process f s₁ (visits qs qe (nodes.take (nodes.length / 2))) with
        | mk s₂ c₂ =>
        cases c₂ with
        | Break r => simp
        | Continue =>
          simp only []
          exact IH right hlt.2.1 hRne s₂
      · rw [if_neg hgr, if_neg hgr]
        rw [hql]
        cases hpl : process f s₁ (visits qs qe (nodes.take (nodes.length / 2))) with
        | mk s₂ c₂ =>
        cases c₂ with
        | Break r => simp [process]
        | Continue => simp [process]
    · rw [if_neg hgl, if_neg hgl]
      simp only [process]
      by_cases hgr : (decide (qs < mid.2) && decide ((mid.1).1.1 < qe) && !right.isEmpty) = true
      · rw [if_pos hgr, if_pos hgr]
        exact IH right hlt.2.1 (gr_parts hgr).2.2 s₁
      · rw [if_neg hgr, if_neg hgr]
        simp [process]

/-- Inversion of the augmentation invariant at a known split. -/
theorem augmented_inv {nodes : List (Node K V)} {mid : Node K V}
    {right : List (Node K V)} (hmr : nodes.drop (nodes.length / 2) = mid :: right)
    (h : Augmented nodes) :
    (∀ x ∈ nodes, x.1.1.2 ≤ mid.2) ∧ Augmented (nodes.take (nodes.length / 2)) ∧
      Augmented right := by
  cases h with
  | nil => simp at hmr
  | node hmr2 ub att hl hr =>
    rw [hmr] at hmr2
    injection hmr2 with h1 h2
    subst h1; subst h2
    exact ⟨ub, hl, hr⟩

/-- On a sorted and augmented node array, the invocation list of the
pruning traversal is, up to order, exactly the brute-force filter by the
half-open overlap predicate. -/
theorem visits_perm (qs qe : K) :
    ∀ nodes : List (Node K V), sortedByStart nodes → Augmented nodes →
      (visits qs qe nodes).Perm
        ((nodes.filter fun n => overlaps qs qe n.1).map Prod.fst) := by
  intro nodes
  induction nodes using list_length_induction with
  | step nodes IH =>
  intro hsort haug
  by_cases hne : nodes = []
  · subst hne
    rw [visits_eq_none (by simp)]
    simp
  obtain ⟨mid, right, hmr⟩ := exists_mid hne
  have hlt := split_lengths hmr
  have hdec := split_decomp hmr
  obtain ⟨hub, haugL, haugR⟩ := augmented_inv hmr haug
  have hsortL : sortedByStart (nodes.take (nodes.length / 2)) :=
    List.Pairwise.sublist (List.take_sublist _ _) hsort
  have hsortR : sortedByStart right := by
    refine List.Pairwise.sublist ?_ hsort
    have h1 : List.Sublist right (mid :: right) := List.sublist_cons_self _ _
    rw [← hmr] at h1
    exact h1.trans (List.drop_sublist _ _)
  have hstart : ∀ x ∈ right, mid.1.1.1 ≤ x.1.1.1 := by
    rw [hdec] at hsort
    have h2 := (List.pairwise_append.mp hsort).2.1
    exact (List.pairwise_cons.mp h2).1
  rw [visits_eq_cons hmr]
  by_cases hq2 : qs < mid.2
  · -- the pruning bound admits the slice
    have hBL : (if (decide (qs < mid.2) && !(nodes.take (nodes.length / 2)).isEmpty) = true
        then visits qs qe (nodes.take (nodes.length / 2)) else []).Perm
        (((nodes.take (nodes.length / 2)).filter fun n => overlaps qs qe n.1).map Prod.fst) := by
      by_cases hLe : (nodes.take (nodes.length / 2)).isEmpty
      · have hLnil := List.isEmpty_iff.mp hLe
        rw [hLnil]
        simp
      · have hgl : (decide (qs < mid.2) && !(nodes.take (nodes.length / 2)).isEmpty) = true := by
          simp [hq2, hLe]
        rw [if_pos hgl]
        exact IH (nodes.take (nodes.length / 2)) hlt.1 hsortL haugL
    by_cases hqe : (mid.1).1.1 < qe
    · -- mid and the right slice are admitted
      have hCR : (if (decide (qs < mid.2) && decide ((mid.1).1.1 < qe) && !right.isEmpty) = true
          then visits qs qe right else []).Perm
          ((right.filter fun n => overlaps qs qe n.1).map Prod.fst) := by
        by_cases hRe : right.isEmpty
        · have hRnil := List.isEmpty_iff.mp hRe
          rw [hRnil]
          simp
        · have hgr : (decide (qs < mid.2) && decide ((mid.1).1.1 < qe) && !right.isEmpty) = true := by
            simp [hq2, hqe, hRe]
          rw [if_pos hgr]
          exact IH right hlt.2.1 hsortR haugR
      have hA : (if qs < mid.2 ∧ (mid.1).1.1 < qe ∧ qs < (mid.1).1.2 then [mid.1] else []) =
          ((if overlaps qs qe mid.1 then [mid] else []).map (Prod.fst (β := K))) := by
        by_cases hm : qs < (mid.1).1.2
        · rw [if_pos ⟨hq2, hqe, hm⟩, if_pos (by simp [overlaps, hm, hqe])]
          rfl
        · rw [if_neg (fun hc => hm hc.2.2), if_neg (by simp [overlaps, hm])]
          rfl
      have hfil : nodes.filter (fun n => overlaps qs qe n.1) =
          ((nodes.take (nodes.length / 2)).filter fun n => overlaps qs qe n.1) ++
          (if overlaps qs qe mid.1 then [mid] else []) ++
          (right.filter fun n => overlaps qs qe n.1) := by
        conv_lhs => rw [hdec]
        rw [List.filter_append, List.filter_cons]
        by_cases hov : overlaps qs qe mid.1
        · rw [if_pos hov, if_pos hov]
          simp
        · rw [if_neg hov, if_neg hov]
          simp
      rw [hfil, hA]
      have goal1 : ((((if overlaps qs qe mid.1 then [mid] else []).map
            (Prod.fst (β := K))) ++ (if (decide (qs < mid.2) && !(nodes.take (nodes.length / 2)).isEmpty) = true
          then visits qs qe (nodes.take (nodes.length / 2)) else [])) ++
          (if (decide (qs < mid.2) && decide ((mid.1).1.1 < qe) && !right.isEmpty) = true
          then visits qs qe right else [])).Perm
          ((((if overlaps qs qe mid.1 then [mid] else []).map (Prod.fst (β := K))) ++
            (((nodes.take (nodes.length / 2)).filter fun n => overlaps qs qe n.1).map Prod.fst)) ++
            ((right.filter fun n => overlaps qs qe n.1).map Prod.fst)) :=
        (((List.Perm.refl _).append hBL).append hCR)
      refine goal1.trans ?_
      simp only [List.map_append]
      have hsw := @List.perm_append_comm (Item K V)
        ((if overlaps qs qe mid.1 then [mid] else []).map (Prod.fst (β := K)))
        (((nodes.take (nodes.length / 2)).filter fun n => overlaps qs qe n.1).map Prod.fst)
      refine (hsw.append_right _).trans ?_
      simp [List.append_assoc]
    · -- the query ends before mid starts: only the left slice survives
      have hPf : ¬(qs < mid.2 ∧ (mid.1).1.1 < qe ∧ qs < (mid.1).1.2) :=
        fun hc => hqe hc.2.1
      have hgr : (decide (qs < mid.2) && decide ((mid.1).1.1 < qe) && !right.isEmpty) = false := by
        simp [hqe]
      have hfil : nodes.filter (fun n => overlaps qs qe n.1) =
          ((nodes.take (nodes.length / 2)).filter fun n => overlaps qs qe n.1) := by
        conv_lhs => rw [hdec]
        rw [List.filter_append, List.filter_cons]
        have hov : ¬ overlaps qs qe mid.1 = true := by
          simp [overlaps, hqe]
        rw [if_neg hov]
        have hfr : right.filter (fun n => overlaps qs qe n.1) = [] := by
          rw [List.filter_eq_nil_iff]
          intro x hx
          simp only [overlaps, Bool.and_eq_true, decide_eq_true_eq, not_and]
          intro _
          exact fun hlt2 => hqe (lt_of_le_of_lt (hstart x hx) hlt2)
        rw [hfr]
        simp
      rw [hfil, if_neg hPf, hgr]
      simp only [Bool.false_eq_true, if_false, List.append_nil, List.nil_append]
      exact hBL
  · -- the query starts at or after the maximum end: nothing matches
    have hfall : nodes.filter (fun n => overlaps qs qe n.1) = [] := by
      rw [List.filter_eq_nil_iff]
      intro x hx
      simp only [overlaps, Bool.and_eq_true, decide_eq_true_eq, not_and]
      intro hlt2
      exact absurd (lt_of_lt_of_le hlt2 (hub x hx)) hq2
    have hPf : ¬(qs < mid.2 ∧ (mid.1).1.1 < qe ∧ qs < (mid.1).1.2) :=
      fun hc => hq2 hc.1
    rw [hfall, if_neg hPf]
    simp [hq2]

/-- If the sequential traversal runs to completion, the fork-join
traversal computes exactly the same result: the two functions differ only
in how an early break in the left branch is handled. -/
theorem par_query_of_continue (qs qe : K) (h : σ → Item K V → σ × ControlFlow R) :
    ∀ nodes : List (Node K V), ∀ s s₁,
      query qs qe h s nodes = some (s₁, ControlFlow.Continue) →
      par_query qs qe h s nodes = some (s₁, ControlFlow.Continue) := by
  intro nodes
  induction nodes using list_length_induction with
  | step nodes IH =>
  intro s s₁ hq
  by_cases hne : nodes = []
  · subst hne
    rw [query_eq_none (by simp)] at hq
    cases hq
  obtain ⟨mid, right, hmr⟩ := exists_mid hne
  have hlt := split_lengths hmr
  rw [query_eq_cons hmr] at hq
  rw [par_query_eq_cons hmr]
  cases hstep : (if qs < mid.2 ∧ (mid.1).1.1 < qe ∧ qs < (mid.1).1.2 then h s mid.1
      else (s, ControlFlow.Continue)) with
  | mk s₀ c =>
  rw [hstep] at hq
  cases c with
  | Break r => simp only [] at hq; cases hq
  | Continue =>
    simp only [] at hq ⊢
    by_cases hgl : (decide (qs < mid.2) && !(nodes.take (nodes.length / 2)).isEmpty) = true
    · rw [if_pos hgl] at hq ⊢
      by_cases hgr : (decide (qs < mid.2) && decide ((mid.1).1.1 < qe) && !right.isEmpty) = true
      · rw [if_pos hgr] at hq ⊢
        cases hql : query qs qe h s₀ (nodes.take (nodes.length / 2)) with
        | none => rw [hql] at hq; cases hq
        | some p =>
          obtain ⟨s₂, c₂⟩ := p
          rw [hql] at hq
          cases c₂ with
          | Break r => simp only [] at hq; simp at hq
          | Continue =>
            simp only [] at hq
            have hpl := IH (nodes.take (nodes.length / 2)) hlt.1 s₀ s₂ hql
            have hpr := IH right hlt.2.1 s₂ s₁ hq
            rw [hpl]
            simp only []
            rw [hpr]
      · rw [if_neg hgr] at hq ⊢
        exact IH (nodes.take (nodes.length / 2)) hlt.1 s₀ s₁ hq
    · rw [if_neg hgl] at hq ⊢
      by_cases hgr : (decide (qs < mid.2) && decide ((mid.1).1.1 < qe) && !right.isEmpty) = true
      · rw [if_pos hgr] at hq ⊢
        exact IH right hlt.2.1 s₀ s₁ hq
      · rw [if_neg hgr] at hq ⊢
        exact hq

/-- One step of the early-stop comparison between the sequential and the
fork-join traversal: assuming the claim for both child slices and that the
handler step at `mid` continues with a state delta `d`, the claim holds
for the whole slice. -/
theorem par_superperm_step (qs qe : K) (f : Item K V → ControlFlow R)
    {nodes : List (Node K V)} {mid : Node K V} {right : List (Node K V)}
    (hmr : nodes.drop (nodes.length / 2) = mid :: right)
    (IHL : nodes.take (nodes.length / 2) ≠ [] →
      ∃ l₁ c₁ l₂ c₂,
        (∀ s, query qs qe (logHandler f) s (nodes.take (nodes.length / 2)) = some (l₁ ++ s, c₁)) ∧
        (∀ s, par_query qs qe (logHandler f) s (nodes.take (nodes.length / 2)) = some (l₂ ++ s, c₂)) ∧
        List.Subperm l₁ l₂)
    (IHR : right ≠ [] →
      ∃ l₁ c₁ l₂ c₂,
        (∀ s, query qs qe (logHandler f) s right = some (l₁ ++ s, c₁)) ∧
        (∀ s, par_query qs qe (logHandler f) s right = some (l₂ ++ s, c₂)) ∧
        List.Subperm l₁ l₂)
    (d : List (Item K V))
    (hd : ∀ s, (if qs < mid.2 ∧ (mid.1).1.1 < qe ∧ qs < (mid.1).1.2 then
        logHandler f s mid.1 else (s, ControlFlow.Continue)) = (d ++ s, ControlFlow.Continue)) :
    ∃ l₁ c₁ l₂ c₂,
      (∀ s, query qs qe (logHandler f) s nodes = some (l₁ ++ s, c₁)) ∧
      (∀ s, par_query qs qe (logHandler f) s nodes = some (l₂ ++ s, c₂)) ∧
      List.Subperm l₁ l₂ := by
  by_cases hgl : (decide (qs < mid.2) && !(nodes.take (nodes.length / 2)).isEmpty) = true
  · have hLne := (gl_parts hgl).2
    obtain ⟨a₁, b₁, a₂, b₂, hA1, hA2, hsubL⟩ := IHL hLne
    by_cases hgr : (decide (qs < mid.2) && decide ((mid.1).1.1 < qe) && !right.isEmpty) = true
    · have hRne := (gr_parts hgr).2.2
      obtain ⟨e₁, g₁, e₂, g₂, hE1, hE2, hsubR⟩ := IHR hRne
      cases b₁ with
      | Break r =>
        refine ⟨a₁ ++ d, ControlFlow.Break r, (e₂ ++ a₂) ++ d,
          (match b₂ with
            | ControlFlow.Break r2 => ControlFlow.Break r2
            | ControlFlow.Continue => g₂), ?_, ?_, ?_⟩
        · intro s
          rw [query_eq_cons hmr, hd s]
          simp only []
          rw [if_pos hgl, if_pos hgr, hA1 (d ++ s)]
          simp [List.append_assoc]
        · intro s
          rw [par_query_eq_cons hmr, hd s]
          simp only []
          rw [if_pos hgl, if_pos hgr, hA2 (d ++ s)]
          simp only []
          rw [hE2 (a₂ ++ (d ++ s))]
          simp only []
          cases b₂ with
          | Break r2 => simp [List.append_assoc]
          | Continue => simp [List.append_assoc]
        · exact (List.subperm_append_right d).mpr
            (hsubL.trans (List.Sublist.subperm (List.sublist_append_right e₂ a₂)))
      | Continue =>
        have hA2p : ∀ t, par_query qs qe (logHandler f) t (nodes.take (nodes.length / 2)) =
            some (a₁ ++ t, ControlFlow.Continue) :=
          fun t => par_query_of_continue qs qe (logHandler f)
            (nodes.take (nodes.length / 2)) t (a₁ ++ t) (hA1 t)
        refine ⟨(e₁ ++ a₁) ++ d, g₁, (e₂ ++ a₁) ++ d, g₂, ?_, ?_, ?_⟩
        · intro s
          rw [query_eq_cons hmr, hd s]
          simp only []
          rw [if_pos hgl, if_pos hgr, hA1 (d ++ s)]
          simp only []
          rw [hE1 (a₁ ++ (d ++ s))]
          simp [List.append_assoc]
        · intro s
          rw [par_query_eq_cons hmr, hd s]
          simp only []
          rw [if_pos hgl, if_pos hgr, hA2p (d ++ s)]
          simp only []
          rw [hE2 (a₁ ++ (d ++ s))]
          simp [List.append_assoc]
        · exact (List.subperm_append_right d).mpr ((List.subperm_append_right a₁).mpr hsubR)
    · refine ⟨a₁ ++ d, b₁, a₂ ++ d, b₂, ?_, ?_, (List.subperm_append_right d).mpr hsubL⟩
      · intro s
        rw [query_eq_cons hmr, hd s]
        simp only []
        rw [if_pos hgl, if_neg hgr, hA1 (d ++ s)]
        simp [List.append_assoc]
      · intro s
        rw [par_query_eq_cons hmr, hd s]
        simp only []
        rw [if_pos hgl, if_neg hgr, hA2 (d ++ s)]
        simp [List.append_assoc]
  · by_cases hgr : (decide (qs < mid.2) && decide ((mid.1).1.1 < qe) && !right.isEmpty) = true
    · have hRne := (gr_parts hgr).2.2
      obtain ⟨e₁, g₁, e₂, g₂, hE1, hE2, hsubR⟩ := IHR hRne
      refine ⟨e₁ ++ d, g₁, e₂ ++ d, g₂, ?_, ?_, (List.subperm_append_right d).mpr hsubR⟩
      · intro s
        rw [query_eq_cons hmr, hd s]
        simp only []
        rw [if_neg hgl, if_pos hgr, hE1 (d ++ s)]
        simp [List.append_assoc]
      · intro s
        rw [par_query_eq_cons hmr, hd s]
        simp only []
        rw [if_neg hgl, if_pos hgr, hE2 (d ++ s)]
        simp [List.append_assoc]
    · refine ⟨d, ControlFlow.Continue, d, ControlFlow.Continue, ?_, ?_, List.Subperm.refl _⟩
      · intro s
        rw [query_eq_cons hmr, hd s]
        simp only []
        rw [if_neg hgl, if_neg hgr]
      · intro s
        rw [par_query_eq_cons hmr, hd s]
        simp only []
        rw [if_neg hgl, if_neg hgr]

/-- Early-stop relaxation of the fork-join traversal, for handlers whose
break decision is a pure function of the item: both traversals succeed,
both record a state delta that does not depend on the starting state, and
the sequential delta is a sub-multiset of the parallel one (the parallel
traversal may invoke the handler more, never less). -/
theorem par_superperm (qs qe : K) (f : Item K V → ControlFlow R) :
    ∀ nodes : List (Node K V), nodes ≠ [] →
      ∃ l₁ c₁ l₂ c₂,
        (∀ s, query qs qe (logHandler f) s nodes = some (l₁ ++ s, c₁)) ∧
        (∀ s, par_query qs qe (logHandler f) s nodes = some (l₂ ++ s, c₂)) ∧
        List.Subperm l₁ l₂ := by
  intro nodes
  induction nodes using list_length_induction with
  | step nodes IH =>
  intro hne
  obtain ⟨mid, right, hmr⟩ := exists_mid hne
  have hlt := split_lengths hmr
  have IHL := fun h => IH (nodes.take (nodes.length / 2)) hlt.1 h
  have IHR := fun h => IH right hlt.2.1 h
  by_cases hP : qs < mid.2 ∧ (mid.1).1.1 < qe ∧ qs < (mid.1).1.2
  · cases hfm : f mid.1 with
    | Break r =>
      refine ⟨[mid.1], ControlFlow.Break r, [mid.1], ControlFlow.Break r, ?_, ?_,
        List.Subperm.refl _⟩
      · intro s
        rw [query_eq_cons hmr, if_pos hP]
        simp [logHandler, hfm]
      · intro s
        rw [par_query_eq_cons hmr, if_pos hP]
        simp [logHandler, hfm]
    | Continue =>
      refine par_superperm_step qs qe f hmr IHL IHR [mid.1] ?_
      intro s
      rw [if_pos hP]
      simp [logHandler, hfm]
  · refine par_superperm_step qs qe f hmr IHL IHR [] ?_
    intro s
    rw [if_neg hP]
    simp

/-- `ITree.query` with a recording handler processes the invocation list
of the underlying traversal (trivially on the empty tree). -/
theorem ITree_query_process (t : ITree K V) (qs qe : K)
    (f : Item K V → ControlFlow R) (s : List (Item K V)) :
    t.query qs qe (logHandler f) s = some (process f s (visits qs qe t.nodes)) := by
  by_cases hne : t.nodes.isEmpty
  · have hnil := List.isEmpty_iff.mp hne
    simp only [ITree.query]
    rw [if_pos hne, hnil, visits_eq_none (by simp)]
    simp [process]
  · simp only [ITree.query]
    rw [if_neg hne]
    exact query_eq_process qs qe f t.nodes (fun hc => hne (by rw [hc]; rfl)) s

/-- `ITree`-level version of `par_query_of_continue`. -/
theorem ITree_par_query_of_continue (t : ITree K V) (qs qe : K)
    (h : σ → Item K V → σ × ControlFlow R) (s s₁ : σ)
    (hq : t.query qs qe h s = some (s₁, ControlFlow.Continue)) :
    t.par_query qs qe h s = some (s₁, ControlFlow.Continue) := by
  by_cases hne : t.nodes.isEmpty
  · simp only [ITree.query] at hq
    simp only [ITree.par_query]
    rw [if_pos hne] at hq ⊢
    exact hq
  · simp only [ITree.query] at hq
    simp only [ITree.par_query]
    rw [if_neg hne] at hq ⊢
    exact par_query_of_continue qs qe h t.nodes s s₁ hq

/-- The items of the tree built from `items` that the traversal visits for
a query are, up to order, the brute-force filter of `items`. -/
theorem new_visits_perm (items : List (Item K V)) (qs qe : K) :
    (visits qs qe (ITree.new items).nodes).Perm (items.filter (overlaps qs qe)) := by
  obtain ⟨hs, ha, hp⟩ := new_spec items
  refine (visits_perm qs qe _ hs ha).trans ?_
  have h1 : ((ITree.new items).nodes.filter fun n => overlaps qs qe n.1).map Prod.fst =
      ((ITree.new items).nodes.map Prod.fst).filter (overlaps qs qe) := by
    rw [List.filter_map]
    rfl
  rw [h1]
  exact hp.filter (overlaps qs qe)

/-- The always-continue collecting run of `query` on a freshly built tree:
it succeeds, runs to completion, and its recorded invocations are a
permutation of the brute-force filter of the input items. -/
theorem query_collect_perm (items : List (Item K V)) (qs qe : K) (s : List (Item K V)) :
    ∃ l, (ITree.new items).query qs qe
        (logHandler fun _ => (ControlFlow.Continue : ControlFlow R)) s =
      some (l ++ s, ControlFlow.Continue) ∧ l.Perm (items.filter (overlaps qs qe)) := by
  refine ⟨(visits qs qe (ITree.new items).nodes).reverse, ?_, ?_⟩
  · rw [ITree_query_process, process_continue]
  · exact (List.reverse_perm _).trans (new_visits_perm items qs qe)

/-- The comparison sort used to model the sorts is sorted by start. -/
theorem mergeSort_sortedByStart (l : List (Node K V)) :
    sortedByStart (l.mergeSort fun a b => decide (a.1.1.1 ≤ b.1.1.1)) := by
  have h1 := @List.sorted_mergeSort (Node K V)
    (fun a b => decide (a.1.1.1 ≤ b.1.1.1))
    (fun a b c hab hbc => by
      simp only [decide_eq_true_eq] at hab hbc ⊢
      exact le_trans hab hbc)
    (fun a b => by
      simp only [Bool.or_eq_true, decide_eq_true_eq]
      exact le_total _ _)
    l
  exact h1.imp fun hab => of_decide_eq_true hab

/-- `sortByStart` satisfies the unstable-sort contract. -/
theorem sortByStart_spec : SortSpec (sortByStart (K := K) (V := V)) := fun l =>
  ⟨List.mergeSort_perm l _, mergeSort_sortedByStart l⟩

/-- `revSort` satisfies the unstable-sort contract as well: it returns a
start-sorted permutation, merely resolving ties in the opposite order. -/
theorem revSort_spec : SortSpec (revSort (K := K) (V := V)) := fun l =>
  ⟨(List.mergeSort_perm _ _).trans (List.reverse_perm l),
    mergeSort_sortedByStart l.reverse⟩

/-- Everything `ITree.par_new` guarantees, for an arbitrary realization of
the parallel sort contract: the node array is sorted by start, satisfies
the augmentation invariant, and its items are a permutation of the input
items. -/
theorem par_new_spec (psort : List (Node K V) → List (Node K V))
    (hsort : SortSpec psort) (items : List (Item K V)) :
    sortedByStart (ITree.par_new psort items).nodes ∧
      Augmented (ITree.par_new psort items).nodes ∧
      ((ITree.par_new psort items).nodes.map Prod.fst).Perm items := by
  obtain ⟨hperm, hsorted⟩ := hsort (items.map fun it => (it, it.1.2))
  have hfst : ((psort (items.map fun it => (it, it.1.2))).map Prod.fst).Perm items := by
    have h2 := hperm.map Prod.fst
    have h3 : (items.map fun it => (it, it.1.2)).map Prod.fst = items := by
      rw [List.map_map]
      exact List.map_id items
    rw [h3] at h2
    exact h2
  have hinit : ∀ x ∈ psort (items.map fun it => (it, it.1.2)), x.2 = x.1.1.2 := by
    intro x hx
    have hx2 : x ∈ items.map fun it => (it, it.1.2) := hperm.subset hx
    obtain ⟨it, hit, he⟩ := List.mem_map.mp hx2
    rw [← he]
  by_cases hS : (psort (items.map fun it => (it, it.1.2))).isEmpty
  · have hnil : psort (items.map fun it => (it, it.1.2)) = [] := List.isEmpty_iff.mp hS
    have hnodes : (ITree.par_new psort items).nodes = [] := by
      simp only [ITree.par_new]
      rw [if_pos hS]
      exact hnil
    rw [hnodes]
    refine ⟨List.Pairwise.nil, Augmented.nil, ?_⟩
    rw [hnil] at hfst
    exact hfst
  · have hne : psort (items.map fun it => (it, it.1.2)) ≠ [] := by
      intro hc; rw [hc] at hS; exact hS (by rfl)
    obtain ⟨nodes2, m, hrun, hf, _, _, haug⟩ := update_max_spec _ hne hinit
    have hnodes : (ITree.par_new psort items).nodes = nodes2 := by
      simp only [ITree.par_new]
      rw [if_neg hS, par_update_max_eq, hrun]
    rw [hnodes]
    refine ⟨sortedByStart_of_fst_eq hf hsorted, haug, ?_⟩
    rw [hf]
    exact hfst

/-- `new_visits_perm`, generalized to any tree whose node array is sorted,
augmented and carries the given items. -/
theorem tree_visits_perm {t : ITree K V} (items : List (Item K V)) (qs qe : K)
    (hs : sortedByStart t.nodes) (ha : Augmented t.nodes)
    (hp : (t.nodes.map Prod.fst).Perm items) :
    (visits qs qe t.nodes).Perm (items.filter (overlaps qs qe)) := by
  refine (visits_perm qs qe _ hs ha).trans ?_
  have h1 : (t.nodes.filter fun n => overlaps qs qe n.1).map Prod.fst =
      (t.nodes.map Prod.fst).filter (overlaps qs qe) := by
    rw [List.filter_map]
    rfl
  rw [h1]
  exact hp.filter (overlaps qs qe)

/-- `query_collect_perm`, generalized to any tree whose node array is
sorted, augmented and carries the given items. -/
theorem tree_collect_perm {t : ITree K V} (items : List (Item K V)) (qs qe : K)
    (s : List (Item K V)) (hs : sortedByStart t.nodes) (ha : Augmented t.nodes)
    (hp : (t.nodes.map Prod.fst).Perm items) :
    ∃ l, t.query qs qe (logHandler fun _ => (ControlFlow.Continue : ControlFlow R)) s =
      some (l ++ s, ControlFlow.Continue) ∧ l.Perm (items.filter (overlaps qs qe)) := by
  refine ⟨(visits qs qe t.nodes).reverse, ?_, ?_⟩
  · rw [ITree_query_process, process_continue]
  · exact (List.reverse_perm _).trans (tree_visits_perm items qs qe hs ha hp)

/-- `ITree`-level version of `par_superperm`: on any one tree, the
fork-join traversal's invocation delta contains the sequential one. -/
theorem ITree_superperm (t : ITree K V) (qs qe : K) (f : Item K V → ControlFlow R)
    (s : List (Item K V)) :
    ∃ l₁ c₁ l₂ c₂,
      t.query qs qe (logHandler f) s = some (l₁ ++ s, c₁) ∧
      t.par_query qs qe (logHandler f) s = some (l₂ ++ s, c₂) ∧
      List.Subperm l₁ l₂ := by
  by_cases ht : t.nodes.isEmpty
  · refine ⟨[], ControlFlow.Continue, [], ControlFlow.Continue, ?_, ?_, List.Subperm.refl _⟩
    · simp only [ITree.query]
      rw [if_pos ht]
      simp
    · simp only [ITree.par_query]
      rw [if_pos ht]
      simp
  · obtain ⟨l₁, c₁, l₂, c₂, h1, h2, hsub⟩ :=
      par_superperm qs qe f t.nodes (fun hc => ht (by rw [hc]; rfl))
    refine ⟨l₁, c₁, l₂, c₂, ?_, ?_, hsub⟩
    · simp only [ITree.query]
      rw [if_neg ht]
      exact h1 s
    · simp only [ITree.par_query]
      rw [if_neg ht]
      exact h2 s

/-! ## The claims -/

/-- C1: for every finite collection of items and every query interval
`[qs, qe)`, running `query` on the tree built by `new` with an
always-continue recording handler invokes the handler exactly once per
stored item satisfying `qs < e && s < qe` and never on any other item:
the recorded multiset of handler arguments is a permutation of the
brute-force linear scan of the items with that predicate. -/
theorem claim_C1 (items : List (Item K V)) (qs qe : K) (s : List (Item K V)) :
    ∃ l, (ITree.new items).query qs qe
        (logHandler fun _ => (ControlFlow.Continue : ControlFlow R)) s =
      some (l ++ s, ControlFlow.Continue) ∧ l.Perm (items.filter (overlaps qs qe)) :=
  query_collect_perm items qs qe s

/-- C2: after `new`, the node array satisfies the augmentation invariant:
for every slice reachable by the recursive positional split, the mid
node's `maxEnd` field equals the true maximum interval end over all items
in that slice (it bounds them all and is attained). -/
theorem claim_C2 (items : List (Item K V)) : Augmented (ITree.new items).nodes :=
  (new_spec items).2.1

/-- C3: the node array produced by `new` is sorted by non-decreasing
interval start. -/
theorem claim_C3 (items : List (Item K V)) : sortedByStart (ITree.new items).nodes :=
  (new_spec items).1

/-- C4, counterexample: the claim's first conjunct, "`par_new` produces a
tree with the same node values as `new`", is not guaranteed by the code:
the two unstable sorts resolve ties among equal starts independently.
`revSort` is an admissible realization of the parallel sort contract, yet
on the items `[0,5) ↦ 0`, `[0,3) ↦ 1` the node array built by `par_new`
differs from the one built by `new` even as a multiset: the record for
`[0,3)` carries `maxEnd = 5` in one tree and `maxEnd = 3` in the other. -/
theorem claim_C4_counterexample :
    SortSpec (revSort (K := Int) (V := Nat)) ∧
    (ITree.new [(((0 : Int), 5), (0 : Nat)), ((0, 3), 1)]).nodes =
      [((((0 : Int), 5), (0 : Nat)), 5), ((((0 : Int), 3), (1 : Nat)), 5)] ∧
    (ITree.par_new revSort [(((0 : Int), 5), (0 : Nat)), ((0, 3), 1)]).nodes =
      [((((0 : Int), 3), (1 : Nat)), 3), ((((0 : Int), 5), (0 : Nat)), 5)] ∧
    ¬ ((ITree.par_new revSort [(((0 : Int), 5), (0 : Nat)), ((0, 3), 1)]).nodes.Perm
        (ITree.new [(((0 : Int), 5), (0 : Nat)), ((0, 3), 1)]).nodes) := by
  have hd1 : (([((((0 : Int), 5), (0 : Nat)), (5 : Int))] : List (Node Int Nat)).drop
      (([((((0 : Int), 5), (0 : Nat)), (5 : Int))] : List (Node Int Nat)).length / 2)) =
      ((((0 : Int), 5), (0 : Nat)), (5 : Int)) :: [] := rfl
  have hd1r : (([((((0 : Int), 3), (1 : Nat)), (3 : Int))] : List (Node Int Nat)).drop
      (([((((0 : Int), 3), (1 : Nat)), (3 : Int))] : List (Node Int Nat)).length / 2)) =
      ((((0 : Int), 3), (1 : Nat)), (3 : Int)) :: [] := rfl
  have hd2 : (([((((0 : Int), 5), (0 : Nat)), (5 : Int)),
        ((((0 : Int), 3), (1 : Nat)), (3 : Int))] : List (Node Int Nat)).drop
      (([((((0 : Int), 5), (0 : Nat)), (5 : Int)),
        ((((0 : Int), 3), (1 : Nat)), (3 : Int))] : List (Node Int Nat)).length / 2)) =
      ((((0 : Int), 3), (1 : Nat)), (3 : Int)) :: [] := rfl
  have hd2r : (([((((0 : Int), 3), (1 : Nat)), (3 : Int)),
        ((((0 : Int), 5), (0 : Nat)), (5 : Int))] : List (Node Int Nat)).drop
      (([((((0 : Int), 3), (1 : Nat)), (3 : Int)),
        ((((0 : Int), 5), (0 : Nat)), (5 : Int))] : List (Node Int Nat)).length / 2)) =
      ((((0 : Int), 5), (0 : Nat)), (5 : Int)) :: [] := rfl
  have hu1 : update_max [((((0 : Int), 5), (0 : Nat)), (5 : Int))] =
      some ([((((0 : Int), 5), (0 : Nat)), 5)], 5) := by
    rw [update_max_eq_cons hd1]
    decide
  have hu1r : update_max [((((0 : Int), 3), (1 : Nat)), (3 : Int))] =
      some ([((((0 : Int), 3), (1 : Nat)), 3)], 3) := by
    rw [update_max_eq_cons hd1r]
    decide
  have hu2 : update_max [((((0 : Int), 5), (0 : Nat)), (5 : Int)),
      ((((0 : Int), 3), (1 : Nat)), (3 : Int))] =
      some ([((((0 : Int), 5), (0 : Nat)), 5), ((((0 : Int), 3), (1 : Nat)), 5)], 5) := by
    rw [update_max_eq_cons hd2]
    rw [show (([((((0 : Int), 5), (0 : Nat)), (5 : Int)),
          ((((0 : Int), 3), (1 : Nat)), (3 : Int))] : List (Node Int Nat)).take
        (([((((0 : Int), 5), (0 : Nat)), (5 : Int)),
          ((((0 : Int), 3), (1 : Nat)), (3 : Int))] : List (Node Int Nat)).length / 2)) =
      [((((0 : Int), 5), (0 : Nat)), (5 : Int))] from rfl]
    rw [hu1]
    decide
  have hu2r : update_max [((((0 : Int), 3), (1 : Nat)), (3 : Int)),
      ((((0 : Int), 5), (0 : Nat)), (5 : Int))] =
      some ([((((0 : Int), 3), (1 : Nat)), 3), ((((0 : Int), 5), (0 : Nat)), 5)], 5) := by
    rw [update_max_eq_cons hd2r]
    rw [show (([((((0 : Int), 3), (1 : Nat)), (3 : Int)),
          ((((0 : Int), 5), (0 : Nat)), (5 : Int))] : List (Node Int Nat)).take
        (([((((0 : Int), 3), (1 : Nat)), (3 : Int)),
          ((((0 : Int), 5), (0 : Nat)), (5 : Int))] : List (Node Int Nat)).length / 2)) =
      [((((0 : Int), 3), (1 : Nat)), (3 : Int))] from rfl]
    rw [hu1r]
    decide
  have hms1 : (([(((0 : Int), 5), (0 : Nat)), ((0, 3), 1)] : List (Item Int Nat)).map fun it =>
      (it, it.1.2)).mergeSort (fun l r => decide (l.1.1.1 ≤ r.1.1.1)) =
      [((((0 : Int), 5), (0 : Nat)), 5), ((((0 : Int), 3), (1 : Nat)), 3)] :=
    (List.mergeSort_of_sorted (by decide)).trans (by decide)
  have hms2 : revSort (([(((0 : Int), 5), (0 : Nat)), ((0, 3), 1)] : List (Item Int Nat)).map fun it =>
      (it, it.1.2)) =
      [((((0 : Int), 3), (1 : Nat)), 3), ((((0 : Int), 5), (0 : Nat)), 5)] := by
    simp only [revSort]
    exact (List.mergeSort_of_sorted (by decide)).trans (by decide)
  have hnew : (ITree.new [(((0 : Int), 5), (0 : Nat)), ((0, 3), 1)]).nodes =
      [((((0 : Int), 5), (0 : Nat)), 5), ((((0 : Int), 3), (1 : Nat)), 5)] := by
    simp only [ITree.new]
    rw [hms1]
    rw [if_neg (by decide), hu2]
  have hpar : (ITree.par_new revSort [(((0 : Int), 5), (0 : Nat)), ((0, 3), 1)]).nodes =
      [((((0 : Int), 3), (1 : Nat)), 3), ((((0 : Int), 5), (0 : Nat)), 5)] := by
    simp only [ITree.par_new]
    rw [hms2]
    rw [if_neg (by decide), par_update_max_eq, hu2r]
  refine ⟨revSort_spec, hnew, hpar, ?_⟩
  rw [hnew, hpar]
  decide

/-- C4, amended: for every admissible realization `psort` of the parallel
unstable sort (any function returning a start-sorted permutation of its
input), `par_new` produces a tree with the same item multiset as `new`
that satisfies the same sort and augmentation invariants — though not
necessarily the same node values when starts tie; `par_query` on that
tree with an always-continue handler records the same match multiset as
`new` followed by `query`; and with an early-stopping pure handler, on
the `par_new` tree the parallel invocation multiset contains the
sequential traversal's stopped-early result on that same tree (a
superset, never a proper subset). -/
theorem claim_C4 (psort : List (Node K V) → List (Node K V)) (hsort : SortSpec psort)
    (items : List (Item K V)) (qs qe : K) :
    ((ITree.par_new psort items).iter).Perm ((ITree.new items).iter) ∧
    sortedByStart (ITree.par_new psort items).nodes ∧
    Augmented (ITree.par_new psort items).nodes ∧
    (∀ s, ∃ l l2,
      (ITree.par_new psort items).par_query qs qe
          (logHandler fun _ => (ControlFlow.Continue : ControlFlow R)) s =
        some (l ++ s, ControlFlow.Continue) ∧
      (ITree.new items).query qs qe
          (logHandler fun _ => (ControlFlow.Continue : ControlFlow R)) s =
        some (l2 ++ s, ControlFlow.Continue) ∧ l.Perm l2) ∧
    (∀ (f : Item K V → ControlFlow R) (s : List (Item K V)),
      ∃ l₁ c₁ l₂ c₂,
        (ITree.par_new psort items).query qs qe (logHandler f) s = some (l₁ ++ s, c₁) ∧
        (ITree.par_new psort items).par_query qs qe (logHandler f) s = some (l₂ ++ s, c₂) ∧
        List.Subperm l₁ l₂) := by
  obtain ⟨hps, hpa, hpp⟩ := par_new_spec psort hsort items
  refine ⟨hpp.trans ((new_spec items).2.2).symm, hps, hpa, ?_, ?_⟩
  · intro s
    obtain ⟨l, hq, hl⟩ := tree_collect_perm (R := R) items qs qe s hps hpa hpp
    obtain ⟨l2, hq2, hl2⟩ := query_collect_perm (R := R) items qs qe s
    exact ⟨l, l2, ITree_par_query_of_continue _ qs qe _ s (l ++ s) hq, hq2,
      hl.trans hl2.symm⟩
  · intro f s
    exact ITree_superperm (ITree.par_new psort items) qs qe f s

/-- Witness for the amended C4 at a concrete sort realization and input:
the contract hypothesis is discharged by `sortByStart_spec`. -/
theorem claim_C4_witness :
    ((ITree.par_new sortByStart [(((0 : Int), 1), (0 : Nat))]).iter).Perm
      ((ITree.new [(((0 : Int), 1), (0 : Nat))]).iter) :=
  (claim_C4 (R := Unit) sortByStart sortByStart_spec [(((0 : Int), 1), (0 : Nat))] 0 1).1

/-- C5: for every node array, including ones violating the invariants
(`new_unchecked` performs no validation), and every query interval and
handler, the sequential query returns a result: being a total Lean
function it terminates, and the `unreachable!()` branch (modelled as
`none`) is never taken because every slice the traversal splits is
non-empty. -/
theorem claim_C5 (nodes : List (Node K V)) (qs qe : K)
    (h : σ → Item K V → σ × ControlFlow R) (s : σ) :
    ∃ out, (ITree.new_unchecked nodes).query qs qe h s = some out := by
  by_cases hne : nodes.isEmpty
  · refine ⟨(s, ControlFlow.Continue), ?_⟩
    simp only [ITree.query, ITree.new_unchecked]
    rw [if_pos hne]
  · have hs := query_isSome qs qe h nodes (fun hc => hne (by rw [hc]; rfl)) s
    obtain ⟨out, hout⟩ := Option.isSome_iff_exists.mp hs
    refine ⟨out, ?_⟩
    simp only [ITree.query, ITree.new_unchecked]
    rw [if_neg hne]
    exact hout

/-- C6: on a built tree, a query with at least one match and a handler
that breaks on its first invocation calls the handler exactly once (the
recorded state gains exactly one item), the reported item is a matching
item determined by the tree and the query (the run is a Lean function,
hence deterministic), and `query` returns the handler's `Break` value. -/
theorem claim_C6 (items : List (Item K V)) (qs qe : K) (s : List (Item K V))
    (hm : items.filter (overlaps qs qe) ≠ []) :
    ∃ it, (ITree.new items).query qs qe
        (logHandler fun it => (ControlFlow.Break it : ControlFlow (Item K V))) s =
      some (it :: s, ControlFlow.Break it) ∧ it ∈ items.filter (overlaps qs qe) := by
  have hv := new_visits_perm items qs qe
  cases hvis : visits qs qe (ITree.new items).nodes with
  | nil =>
    rw [hvis] at hv
    exact absurd (List.length_eq_zero.mp (by simpa using hv.length_eq.symm)) hm
  | cons v rest =>
    refine ⟨v, ?_, ?_⟩
    · rw [ITree_query_process, hvis]
      simp [process]
    · have hmem : v ∈ visits qs qe (ITree.new items).nodes := by
        rw [hvis]
        exact List.mem_cons_self _ _
      exact hv.subset hmem

/-- Witness for C6 at a concrete input with a match. -/
theorem claim_C6_witness :
    ([(((0 : Int), 2), (0 : Nat))].filter (overlaps 1 2) ≠ [] ∧
      ∃ it, (ITree.new [(((0 : Int), 2), (0 : Nat))]).query 1 2
          (logHandler fun it => (ControlFlow.Break it : ControlFlow (Item Int Nat))) [] =
        some (it :: [], ControlFlow.Break it) ∧
        it ∈ [(((0 : Int), 2), (0 : Nat))].filter (overlaps 1 2)) :=
  ⟨by decide, claim_C6 [(((0 : Int), 2), (0 : Nat))] 1 2 [] (by decide)⟩

/-- C7: `new_unchecked` performs no sorting, augmentation or any other
modification of the supplied storage, and wrapping the storage of a
previously built tree yields a tree whose `query` coincides with the
original tree's `query` for every query interval, handler and state. -/
theorem claim_C7 :
    (∀ nodes : List (Node K V), (ITree.new_unchecked nodes).nodes = nodes) ∧
    (∀ (items : List (Item K V)) (qs qe : K) (h : σ → Item K V → σ × ControlFlow R) (s : σ),
      (ITree.new_unchecked (ITree.new items).nodes).query qs qe h s =
        (ITree.new items).query qs qe h s) :=
  ⟨fun _ => rfl, fun _ _ _ _ _ => rfl⟩

/-- C8, counterexample: the claim "a query interval with `qs = qe` causes
`query` to invoke the handler zero times" fails on the code: on the tree
for the single item `[1, 10) ↦ 0`, the degenerate query `[4, 4)` invokes
the handler exactly once, because `4 < 10 && 1 < 4` holds. -/
theorem claim_C8_counterexample :
    (ITree.new [(((1 : Int), 10), (0 : Nat))]).query 4 4
      (logHandler fun _ => (ControlFlow.Continue : ControlFlow Unit)) [] =
      some ([((1, 10), 0)], ControlFlow.Continue) := by
  obtain ⟨l, hq, hp⟩ := query_collect_perm (R := Unit) [(((1 : Int), 10), (0 : Nat))] 4 4 []
  have hfil : [(((1 : Int), 10), (0 : Nat))].filter (overlaps 4 4) = [((1, 10), 0)] := by
    decide
  rw [hfil] at hp
  rw [List.perm_singleton.mp hp, List.append_nil] at hq
  exact hq

/-- C8, amended: degenerate intervals can match under `qs < e && s < qe`.
A query `[q, q)` invokes the handler exactly on the stored items with
`s < q < e` (those strictly containing the query point), and a stored
degenerate item with `s = e` is reported by a query exactly when
`qs < s ∧ s < qe`; in particular a reported degenerate item always
strictly lies inside the query interval. -/
theorem claim_C8 (items : List (Item K V)) (q qs qe : K) (s : List (Item K V)) :
    (∃ l, (ITree.new items).query q q
        (logHandler fun _ => (ControlFlow.Continue : ControlFlow R)) s =
      some (l ++ s, ControlFlow.Continue) ∧
      l.Perm (items.filter fun it => decide (it.1.1 < q) && decide (q < it.1.2))) ∧
    (∀ l c, (ITree.new items).query qs qe
        (logHandler fun _ => (ControlFlow.Continue : ControlFlow R)) s =
      some (l ++ s, c) → ∀ it ∈ l, it.1.1 = it.1.2 → qs < it.1.1 ∧ it.1.1 < qe) := by
  constructor
  · obtain ⟨l, hq, hp⟩ := query_collect_perm (R := R) items q q s
    refine ⟨l, hq, hp.trans ?_⟩
    have : items.filter (overlaps q q) =
        items.filter fun it => decide (it.1.1 < q) && decide (q < it.1.2) := by
      apply List.filter_congr
      intro it _
      simp only [overlaps, Bool.and_comm]
    rw [this]
  · intro l c hq it hit hdeg
    obtain ⟨l₀, hq₀, hp₀⟩ := query_collect_perm (R := R) items qs qe s
    rw [hq₀] at hq
    injection hq with hq
    injection hq with hq1 hq2
    have hl : it ∈ l₀ := List.append_cancel_right hq1.symm ▸ hit
    have hfil := hp₀.subset hl
    have hov := List.of_mem_filter hfil
    simp only [overlaps, Bool.and_eq_true, decide_eq_true_eq] at hov
    exact ⟨hdeg ▸ hov.1, hov.2⟩

/-- C9: for the items `[1,3) ↦ "a"`, `[2,6) ↦ "b"`, `[4,5) ↦ "c"`,
`[8,9) ↦ "d"`, building with `new` and querying `[4, 5)` with an
always-continue recording handler reports exactly `"b"` and `"c"`, each
once, and neither `"a"` nor `"d"`. -/
theorem claim_C9 :
    ∃ l, (ITree.new [(((1 : Int), 3), "a"), ((2, 6), "b"), ((4, 5), "c"), ((8, 9), "d")]).query 4 5
        (logHandler fun _ => (ControlFlow.Continue : ControlFlow Unit)) [] =
      some (l, ControlFlow.Continue) ∧ l.Perm [((2, 6), "b"), ((4, 5), "c")] := by
  obtain ⟨l, hq, hp⟩ := query_collect_perm (R := Unit)
    [(((1 : Int), 3), "a"), ((2, 6), "b"), ((4, 5), "c"), ((8, 9), "d")] 4 5 []
  rw [List.append_nil] at hq
  refine ⟨l, hq, hp.trans ?_⟩
  decide

/-- C10: construction preserves the items: `iter` on the tree built by
`new` yields exactly the input items as a multiset, and its length (the
iterator's exact size) equals the number of input items. -/
theorem claim_C10 (items : List (Item K V)) :
    ((ITree.new items).iter).Perm items ∧ (ITree.new items).iter.length = items.length := by
  have hp := (new_spec items).2.2
  exact ⟨hp, hp.length_eq⟩

/-- Witness for the amended C8 at a concrete input: the degenerate stored
item `[1, 1) ↦ 0` is reported by the query `[0, 2)` and indeed satisfies
`qs < s ∧ s < qe`. -/
theorem claim_C8_witness : (0 : Int) < 1 ∧ (1 : Int) < 2 := by
  have hrun : (ITree.new [(((1 : Int), 1), (0 : Nat))]).query 0 2
      (logHandler fun _ => (ControlFlow.Continue : ControlFlow Unit)) [] =
      some ([((1, 1), 0)] ++ [], ControlFlow.Continue) := by
    obtain ⟨l, hq, hp⟩ := query_collect_perm (R := Unit) [(((1 : Int), 1), (0 : Nat))] 0 2 []
    have hfil : [(((1 : Int), 1), (0 : Nat))].filter (overlaps 0 2) = [((1, 1), 0)] := by
      decide
    rw [hfil] at hp
    rw [List.perm_singleton.mp hp] at hq
    exact hq
  exact (claim_C8 [(((1 : Int), 1), (0 : Nat))] 0 0 2 []).2 [((1, 1), 0)]
    ControlFlow.Continue hrun ((1, 1), 0) (List.mem_singleton.mpr rfl) rfl

end Sif
